import Mathlib

/-!
Verification of the GitAutoPushInChunks upload engine (V2 core:
`file_processor.py`, `git_manager.py`, `ui/worker.py`, `constants.py`).

The Python code is shallowly embedded: file names are lists of characters,
file contents are lists of bytes (modelled as `Nat`), the on-disk state for
the splitter is a partial map from names to contents, and the side-effecting
git operations are modelled as events produced against oracles that decide
the outcome of each push / pull / stage subprocess call.
-/

namespace GitAutoPush

/-- File or pattern names are character lists (Python `str` compared per
character, as `path.name` comparisons do). -/
abbrev Name := List Char

/-- Lower-casing of a name, mirroring Python `str.lower()` on the
character level. -/
def lowerName (n : Name) : Name := n.map Char.toLower

/-- Substring test: `isSubstr pat hay` is Python `pat in hay`. -/
def isSubstr (pat : Name) : Name → Bool
  | [] => pat.isPrefixOf ([] : Name)
  | h :: t => pat.isPrefixOf (h :: t) || isSubstr pat t

/-- `FileProcessor.should_ignore` (src/V2/core/file_processor.py, lines
66-79).  For each pattern in order: a pattern starting with `*` matches when
the name ends with the rest of the pattern; otherwise an exact name match;
otherwise, for directories only, a case-insensitive substring match on the
directory name. -/
def shouldIgnore (nm : Name) (isDir : Bool) (patterns : List Name) : Bool :=
  patterns.any fun pat =>
    if pat.head? = some '*' then (pat.drop 1).isSuffixOf nm
    else if nm = pat then true
    else isDir && isSubstr (lowerName pat) (lowerName nm)

/-- Fuelled form of the `f.read(chunk_size)` loop of
`FileProcessor.split_file`; the fuel only bounds the number of iterations
and is irrelevant whenever it is at least the length of the data. -/
def chunkContentsAux (cs : Nat) : Nat → List Nat → List (List Nat)
  | _, [] => []
  | 0, _ :: _ => []
  | fuel + 1, d => if cs = 0 then [] else d.take cs :: chunkContentsAux cs fuel (d.drop cs)

/-- The sequence of blocks obtained by `f.read(chunk_size)` until an empty
read (`FileProcessor.split_file` read loop).  `cs = 0` gives no blocks, as
`f.read(0)` returns the empty bytes object and the loop breaks at once. -/
def chunkContents (cs : Nat) (data : List Nat) : List (List Nat) :=
  chunkContentsAux cs data.length data

/-- Fuelled recursion producing the byte length of each block of the read
loop; the fuel is the exact block count. -/
def chunkSizesAux (cs : Nat) : Nat → Nat → List Nat
  | 0, _ => []
  | fuel + 1, n => min cs n :: chunkSizesAux cs fuel (n - cs)

/-- The byte length of each block produced by the read loop, as a function
of the source size alone: `ceil(n / cs)` blocks of `cs` bytes except a
short last one. -/
def chunkSizes (cs n : Nat) : List Nat :=
  chunkSizesAux cs ((n + cs - 1) / cs) n

/-- Python `f"{n:03d}"`: the decimal digits of `n`, zero-padded on the left
to a field width of 3. -/
def pad3 (n : Nat) : Name :=
  (if n < 10 then ['0', '0'] else if n < 100 then ['0'] else []) ++
    (Nat.repr n).toList

/-- The chunk file name `f"{stem}{CHUNK_PREFIX}{num:03d}{ext}"` with
`CHUNK_PREFIX = "_part"` (src/V2/core/constants.py line 8). -/
def chunkName (stem ext : Name) (i : Nat) : Name :=
  stem ++ "_part".toList ++ pad3 i ++ ext

/-- Python `pathlib` stem/suffix split: the suffix starts at the last dot,
provided that dot is neither the first nor the last character; otherwise the
suffix is empty. -/
def splitStemExt (nm : Name) : Name × Name :=
  if '.' ∈ nm then
    let i := nm.length - 1 - nm.reverse.indexOf '.'
    if 0 < i ∧ i + 1 < nm.length then (nm.take i, nm.drop i) else (nm, [])
  else (nm, [])

/-- The directory holding the split file, as a map from file names to
contents (`none` = file absent). -/
def Disk := Name → Option (List Nat)

/-- Writing a file (`open(path, "wb")` followed by a full write). -/
def diskSet (d : Disk) (p : Name) (v : List Nat) : Disk :=
  fun q => if q = p then some v else d q

/-- Deleting a file (`path.unlink()`). -/
def diskDel (d : Disk) (p : Name) : Disk :=
  fun q => if q = p then none else d q

/-- Sequentially writing a list of files. -/
def writeSeq (d : Disk) (l : List (Name × List Nat)) : Disk :=
  l.foldl (fun f e => diskSet f e.1 e.2) d

/-- Sequentially deleting a list of files. -/
def delSeq (d : Disk) (l : List Name) : Disk :=
  l.foldl diskDel d

/-- Result of one `split_file` call: whether it raised, the returned chunk
names, the chunk files fully written during the attempt (in order, with
contents), and the resulting directory state. -/
structure SplitOutcome where
  raised : Bool
  chunks : List Name
  written : List (Name × List Nat)
  disk : Disk

/-- `FileProcessor.split_file` (src/V2/core/file_processor.py lines 21-63;
identically src/V1/gity.py lines 49-91 with the fixed chunk size).  A
missing file returns `[]`.  Otherwise the blocks of the read loop are
written one by one to their chunk names; only after all writes does the
original get deleted.  `failAt = some k` injects an I/O failure into the
write of chunk `k`: `open(..., "wb")` has already created chunk file `k`
(empty here) when the write raises, the handler removes every file in the
`chunks` list — which holds only chunks `1..k-1` — and the exception is
re-raised. -/
def splitFile (d : Disk) (path : Name) (cs : Nat) (failAt : Option Nat) :
    SplitOutcome :=
  match d path with
  | none => ⟨false, [], [], d⟩
  | some data =>
    let se := splitStemExt path
    let cks := chunkContents cs data
    let wr := (List.enumFrom 1 cks).map fun ic => (chunkName se.1 se.2 ic.1, ic.2)
    let ok : SplitOutcome :=
      ⟨false, wr.map (·.1), wr, diskDel (writeSeq d wr) path⟩
    match failAt with
    | some k =>
      if 1 ≤ k ∧ k ≤ cks.length then
        let pre := wr.take (k - 1)
        let dPart := diskSet (writeSeq d pre) (chunkName se.1 se.2 k) []
        ⟨true, [], pre, delSeq dPart (pre.map (·.1))⟩
      else ok
    | none => ok

/-- A failure record in `GitManager.failed_commits`: the path and the error
text (`str(e)`). -/
abbrev FailRec := List Name × String

/-- Git operations issued against the working copy, in order.  `stage` is
`repo.git.add`, `commitGroup` is `repo.index.commit` for one folder group
(the commit is created unconditionally by GitPython, staged changes or not),
`pushAttempt k ok` is the push on attempt `k` (0-based) with its outcome,
and `pullAttempt k ok` is the reconciliation pull issued after failed
attempt `k`. -/
inductive GEvent where
  | stage (p : List Name)
  | commitGroup (folder : List Name)
  | pushAttempt (k : Nat) (ok : Bool)
  | pullAttempt (k : Nat) (ok : Bool)
deriving DecidableEq

/-- Outcomes of the external subprocess calls, supplied per attempt /
path. -/
structure GitOracles where
  pushOk : Nat → Bool
  pullOk : Nat → Bool
  pushErr : Nat → String
  stageOk : List Name → Bool
  stageErr : List Name → String

/-- The push retry loop of `GitManager._commit_folder_group`
(src/V2/core/git_manager.py lines 129-146), unrolled over the remaining
iterations of `for attempt in range(MAX_RETRIES)`.  A successful push
returns `True`; a failure on the last attempt returns `False`; any earlier
failure issues a pull (whose own failure is only logged) and continues.
`none` is Python falling off the loop (impossible for `maxR ≥ 1`). -/
def pushRetryAux (maxR : Nat) (pushOk pullOk : Nat → Bool) :
    Nat → Nat → Option Bool × List GEvent
  | _, 0 => (none, [])
  | k, fuel + 1 =>
    if pushOk k then (some true, [.pushAttempt k true])
    else if k = maxR - 1 then (some false, [.pushAttempt k false])
    else
      let rest := pushRetryAux maxR pushOk pullOk (k + 1) fuel
      (rest.1, .pushAttempt k false :: .pullAttempt k (pullOk k) :: rest.2)

/-- The whole retry loop, starting at attempt 0 with `maxR` iterations. -/
def pushRetry (maxR : Nat) (pushOk pullOk : Nat → Bool) :
    Option Bool × List GEvent :=
  pushRetryAux maxR pushOk pullOk 0 maxR

/-- `GitManager._commit_folder_group` (src/V2/core/git_manager.py lines
104-146) for one folder group: stage each file (a staging failure is
recorded and skipped), commit, then push with retry.  On retry exhaustion
every file of the group is recorded with the error text of the last
attempt. -/
def commitFolderGroup (maxR : Nat) (g : GitOracles) (folder : List Name)
    (files : List (List Name × Nat)) : Bool × List FailRec × List GEvent :=
  let stageEvts := files.filterMap fun f =>
    if g.stageOk f.1 then some (GEvent.stage f.1) else none
  let stageFails := files.filterMap fun f =>
    if g.stageOk f.1 then none else some (f.1, g.stageErr f.1)
  let pr := pushRetry maxR g.pushOk g.pullOk
  let ok := pr.1.getD false
  let termFails := if ok then [] else files.map fun f => (f.1, g.pushErr (maxR - 1))
  (ok, stageFails ++ termFails, stageEvts ++ GEvent.commitGroup folder :: pr.2)

/-- `folder_groups.setdefault(parent, []).append(fp)`: append an item to its
folder's group, creating the group at the end on first sight. -/
def addToGroup : List (List Name × List (List Name × Nat)) → List Name →
    (List Name × Nat) → List (List Name × List (List Name × Nat))
  | [], f, it => [(f, [it])]
  | (g, l) :: rest, f, it =>
    if g = f then (g, l ++ [it]) :: rest else (g, l) :: addToGroup rest f it

/-- The grouping key `str(fp.parent.relative_to(self.project_path))`, as the
path with its last component dropped (`[]` is the project root). -/
def folderOf (p : List Name) : List Name := p.dropLast

/-- The folder grouping built by `GitManager.commit_and_push` (lines
83-89). -/
def folderGroups (batch : List (List Name × Nat)) :
    List (List Name × List (List Name × Nat)) :=
  batch.foldl (fun acc it => addToGroup acc (folderOf it.1) it) []

/-- `GitManager.commit_and_push` (src/V2/core/git_manager.py lines 77-102):
an empty path list returns `True` at once; otherwise each folder group is
committed separately and the results are and-folded into
`overall_success`. -/
def commitAndPush (maxR : Nat) (g : GitOracles)
    (batch : List (List Name × Nat)) : Bool × List FailRec × List GEvent :=
  if batch.isEmpty then (true, [], [])
  else
    let rs := (folderGroups batch).map fun gr => commitFolderGroup maxR g gr.1 gr.2
    (rs.foldl (fun b r => b && r.1) true,
     rs.flatMap (fun r => r.2.1),
     rs.flatMap (fun r => r.2.2))

/-- One entry of the `rglob` scan: the path relative to the project root as
a component list, whether it is a directory, and the byte size (0 for
directories). -/
structure Item where
  path : List Name
  isDir : Bool
  size : Nat
deriving DecidableEq

/-- `item.name`: the last path component. -/
def itemName (it : Item) : Name := it.path.getLastD []

/-- The chunk entries (path and byte size) that replace an oversized file,
per `FileProcessor.split_file` invoked by `UploadWorker._process_file` with
`max_size` as the chunk size. -/
def chunkEntries (maxSize : Nat) (it : Item) : List (List Name × Nat) :=
  let se := splitStemExt (itemName it)
  (List.enumFrom 1 (chunkSizes maxSize it.size)).map fun isz =>
    (it.path.dropLast ++ [chunkName se.1 se.2 isz.1], isz.2)

/-- `UploadWorker._process_file` (src/V2/ui/worker.py lines 108-139): on an
exception (oracle `procOk` false) the file is recorded in `failed_pushes`
and nothing is returned; an oversized file is replaced by its chunks; any
other file is returned whole.  Note V2 uses the single configured value
`chunk_size_mb` both as the size threshold and as the chunk size. -/
def processFile (maxSize : Nat) (procOk : List Name → Bool) (it : Item) :
    List (List Name × Nat) × List (List Name) :=
  if procOk it.path = false then ([], [it.path])
  else if maxSize < it.size then (chunkEntries maxSize it, [])
  else ([(it.path, it.size)], [])

/-- Session configuration: `chunk_size_mb` in bytes, `batch_size`, the
ignore patterns (operator additions plus `DEFAULT_IGNORES`), and
`MAX_RETRIES`. -/
structure Config where
  maxSize : Nat
  batchSize : Nat
  patterns : List Name
  maxR : Nat

/-- Mutable state of `UploadWorker.run`: the batch under accumulation, the
batches handed to `commit_and_push` so far, the number of such calls,
`GitManager.failed_commits`, the paths in `UploadWorker.failed_pushes`, the
git events issued, and whether the stop flag was observed. -/
structure WState where
  cur : List (List Name × Nat)
  flushed : List (List (List Name × Nat))
  nflush : Nat
  gfails : List FailRec
  wfails : List (List Name)
  events : List GEvent
  stopped : Bool

/-- Flushing the current batch: `UploadWorker._commit_batch` (lines
141-149) calls `commit_and_push` and on failure extends `failed_pushes`
with every path of the batch. -/
def flushBatch (cfg : Config) (git : Nat → GitOracles) (st : WState) : WState :=
  let r := commitAndPush cfg.maxR (git st.nflush) st.cur
  { st with
    cur := []
    flushed := st.flushed ++ [st.cur]
    nflush := st.nflush + 1
    gfails := st.gfails ++ r.2.1
    events := st.events ++ r.2.2
    wfails := st.wfails ++ (if r.1 then [] else st.cur.map (·.1)) }

/-- One iteration of the scan loop in `UploadWorker.run` (lines 49-71):
ignored items are only logged; directories are skipped; files are processed,
their results extended onto the current batch, and the batch is flushed once
it reaches `batch_size`. -/
def stepItem (cfg : Config) (git : Nat → GitOracles)
    (procOk : List Name → Bool) (st : WState) (it : Item) : WState :=
  if shouldIgnore (itemName it) it.isDir cfg.patterns then st
  else if it.isDir then st
  else
    let pr := processFile cfg.maxSize procOk it
    if pr.1.isEmpty then { st with wfails := st.wfails ++ pr.2 }
    else
      let st' := { st with cur := st.cur ++ pr.1 }
      if cfg.batchSize ≤ st'.cur.length then flushBatch cfg git st' else st'

/-- Whether the cooperative stop flag reads true at iteration boundary `i`:
the operator sets it before iteration `s`. -/
def stopRead (stopAt : Option Nat) (i : Nat) : Bool :=
  match stopAt with
  | none => false
  | some s => s ≤ i

/-- The scan loop: before each item the stop flag is polled and the loop
breaks if it is set (src/V2/ui/worker.py lines 50-51). -/
def runLoop (cfg : Config) (git : Nat → GitOracles)
    (procOk : List Name → Bool) (stopAt : Option Nat) :
    Nat → WState → List Item → WState
  | _, st, [] => st
  | i, st, it :: rest =>
    if stopRead stopAt i then st
    else runLoop cfg git procOk stopAt (i + 1) (stepItem cfg git procOk st it) rest

/-- The initial worker state. -/
def initState : WState := ⟨[], [], 0, [], [], [], false⟩

/-- `UploadWorker.run` over a scanned item list (src/V2/ui/worker.py lines
47-83): run the loop, then flush the remaining batch only if it is nonempty
and the stop flag is not set (lines 73-75). -/
def runWorker (cfg : Config) (git : Nat → GitOracles)
    (procOk : List Name → Bool) (items : List Item) (stopAt : Option Nat) :
    WState :=
  let st := runLoop cfg git procOk stopAt 0 initState items
  let st' :=
    if st.cur.isEmpty = false ∧ stopRead stopAt items.length = false
    then flushBatch cfg git st else st
  { st' with stopped := stopRead stopAt items.length }

/-- The batch entries a single scanned item contributes during the loop:
nothing for ignored items and directories, the `_process_file` result
otherwise. -/
def outputOf (cfg : Config) (procOk : List Name → Bool) (it : Item) :
    List (List Name × Nat) :=
  if shouldIgnore (itemName it) it.isDir cfg.patterns then []
  else if it.isDir then []
  else (processFile cfg.maxSize procOk it).1

/-- The git events of a list of batches committed in sequence, the batch
at position `n + i` using the oracles of call `n + i`. -/
def eventsFrom (cfg : Config) (git : Nat → GitOracles) :
    Nat → List (List (List Name × Nat)) → List GEvent
  | _, [] => []
  | n, b :: bs =>
    (commitAndPush cfg.maxR (git n) b).2.2 ++ eventsFrom cfg git (n + 1) bs

/-- A file tree rooted at the project directory. -/
inductive FTree where
  | file (nm : Name) (size : Nat)
  | dir (nm : Name) (children : List FTree)

/-- Depth-first enumeration of a forest: each node followed by its subtree,
then the remaining siblings. -/
def rglobForest : List Name → List FTree → List Item
  | _, [] => []
  | pre, .file nm sz :: ts =>
    ⟨pre ++ [nm], false, sz⟩ :: rglobForest pre ts
  | pre, .dir nm cs :: ts =>
    ⟨pre ++ [nm], true, 0⟩ ::
      (rglobForest (pre ++ [nm]) cs ++ rglobForest pre ts)

/-- The scan of the project root: `Path.rglob("*")` yields every descendant
of the root directory, depth first, with no pruning of any kind
(src/V2/ui/worker.py line 49 iterates it directly). -/
def rglob : FTree → List Item
  | .file _ _ => []
  | .dir _ cs => rglobForest [] cs

/-! ### Concrete instances used by the scenario theorems -/

/-- Oracles under which every subprocess call succeeds. -/
def okGit : GitOracles :=
  ⟨fun _ => true, fun _ => true, fun _ => "", fun _ => true, fun _ => ""⟩

/-- One megabyte, `1024 * 1024` bytes (src/V2/ui/worker.py line 112). -/
def MB : Nat := 1024 * 1024

/-- A directory holding the single 5-byte file `b.bin`. -/
def bDisk : Disk :=
  fun p => if p = "b.bin".toList then some [7, 7, 7, 7, 7] else none

/-- Root containing `Binaries/x.bin`, the ignore scenario of the spec. -/
def binTree : FTree :=
  .dir "root".toList [.dir "Binaries".toList [.file "x.bin".toList 5]]

/-- Root containing `a.bin` (10 MB) and `b.bin` (30 MB), the end-to-end
scenario of the spec. -/
def abTree : FTree :=
  .dir "root".toList
    [.file "a.bin".toList (10 * MB), .file "b.bin".toList (30 * MB)]

/-- Root containing only `a.bin` (10 MB), for the idempotence scenario. -/
def aTree : FTree := .dir "root".toList [.file "a.bin".toList (10 * MB)]

/-- Oracles under which every push attempt is rejected with a fixed error
text, while pulls and staging succeed. -/
def failPushGit : GitOracles :=
  ⟨fun _ => false, fun _ => true, fun _ => "remote rejected",
   fun _ => true, fun _ => ""⟩

/-- A concrete two-file batch spanning two folders. -/
def twoBatch : List (List Name × Nat) :=
  [(["a.bin".toList], 5), (["docs".toList, "b.txt".toList], 7)]

/-- A concrete scan of three small files, for the cancellation witness. -/
def threeItems : List Item :=
  [⟨["a.bin".toList], false, 1⟩, ⟨["b.bin".toList], false, 2⟩,
   ⟨["c.bin".toList], false, 3⟩]

/-- Whether an event is an `index.commit` call. -/
def isCommitEvt : GEvent → Bool
  | .commitGroup _ => true
  | _ => false

/-- Whether an event is a `repo.git.add` call for the given path. -/
def isStageEvt (p : List Name) : GEvent → Bool
  | .stage q => q = p
  | _ => false

/-! ### Lemmas about the chunking loop -/

theorem chunkContentsAux_fuel (cs : Nat) :
    ∀ fuel fuel' (data : List Nat), data.length ≤ fuel → data.length ≤ fuel' →
      chunkContentsAux cs fuel data = chunkContentsAux cs fuel' data := by
  intro fuel
  induction fuel with
  | zero =>
    intro fuel' data h _
    have : data = [] := List.eq_nil_of_length_eq_zero (Nat.le_zero.mp h)
    subst this
    cases fuel' <;> rfl
  | succ f ih =>
    intro fuel' data h h'
    cases data with
    | nil => cases fuel' <;> rfl
    | cons d ds =>
      cases fuel' with
      | zero => simp at h'
      | succ f' =>
        show (if cs = 0 then [] else _) = (if cs = 0 then [] else _)
        by_cases hcs : cs = 0
        · simp [hcs]
        · simp only [hcs, if_false]
          have hlen : ((d :: ds).drop cs).length ≤ f := by
            simp only [List.length_drop, List.length_cons]
            simp only [List.length_cons] at h
            omega
          have hlen' : ((d :: ds).drop cs).length ≤ f' := by
            simp only [List.length_drop, List.length_cons]
            simp only [List.length_cons] at h'
            omega
          rw [ih f' _ hlen hlen']

/-- The recursion equation of the `f.read(chunk_size)` loop. -/
theorem chunkContents_eq (cs : Nat) (data : List Nat) :
    chunkContents cs data =
      if cs = 0 ∨ data = [] then []
      else data.take cs :: chunkContents cs (data.drop cs) := by
  cases data with
  | nil => simp [chunkContents, chunkContentsAux]
  | cons d ds =>
    by_cases hcs : cs = 0
    · simp [chunkContents, chunkContentsAux, hcs]
    · have hne : ¬(cs = 0 ∨ d :: ds = []) := by simp [hcs]
      rw [if_neg hne]
      show chunkContentsAux cs (ds.length + 1) (d :: ds) = _
      show (if cs = 0 then [] else _) = _
      rw [if_neg hcs]
      congr 1
      exact chunkContentsAux_fuel cs ds.length ((d :: ds).drop cs).length _
        (by simp only [List.length_drop, List.length_cons]; omega) (le_refl _)

/-- The recursion equation of `chunkSizes`. -/
theorem chunkSizes_eq (cs n : Nat) :
    chunkSizes cs n =
      if cs = 0 ∨ n = 0 then [] else min cs n :: chunkSizes cs (n - cs) := by
  by_cases hcs : cs = 0
  · simp [chunkSizes, hcs, chunkSizesAux, Nat.div_zero]
  · by_cases hn : n = 0
    · subst hn
      have h0 : (cs - 1) / cs = 0 := Nat.div_eq_of_lt (by omega)
      simp [chunkSizes, h0, chunkSizesAux]
    · have hne : ¬(cs = 0 ∨ n = 0) := by simp [hcs, hn]
      rw [if_neg hne]
      have hm : (n + cs - 1) / cs = ((n - cs) + cs - 1) / cs + 1 := by
        by_cases hle : n ≤ cs
        · have h1 : n + cs - 1 = cs + (n - 1) := by omega
          have h2 : n - cs = 0 := by omega
          rw [h1, h2, Nat.add_comm cs (n - 1), Nat.add_div_right _ (by omega),
            Nat.div_eq_of_lt (by omega), Nat.div_eq_of_lt (by omega)]
        · have h1 : n + cs - 1 = ((n - cs) + cs - 1) + cs := by omega
          rw [h1, Nat.add_div_right _ (by omega)]
      unfold chunkSizes
      rw [hm]
      rfl

/-- The byte lengths of the blocks of the read loop only depend on the
source length: the source-level splitter and its size abstraction agree. -/
theorem chunkContents_map_length (cs : Nat) (data : List Nat) :
    (chunkContents cs data).map List.length = chunkSizes cs data.length := by
  generalize hn : data.length = n
  induction n using Nat.strong_induction_on generalizing data with
  | _ n ih =>
    rw [chunkContents_eq, chunkSizes_eq]
    by_cases hcs : cs = 0
    · simp [hcs]
    · by_cases hd : data = []
      · subst hd
        simp at hn
        simp [hcs, ← hn]
      · have hlen : 0 < n := by
          subst hn
          exact List.length_pos.mpr hd
        have hne : ¬(cs = 0 ∨ data = []) := by simp [hcs, hd]
        have hne' : ¬(cs = 0 ∨ n = 0) := by omega
        rw [if_neg hne, if_neg hne']
        simp only [List.map_cons, List.length_take, hn]
        congr 1
        exact ih (n - cs) (by omega) _ (by simp [List.length_drop, hn])

/-- The sum of the block lengths is the source length (for a positive chunk
size). -/
theorem chunkSizes_sum (cs : Nat) (hcs : 0 < cs) (n : Nat) :
    (chunkSizes cs n).sum = n := by
  induction n using Nat.strong_induction_on with
  | _ n ih =>
    rw [chunkSizes_eq]
    by_cases hn : n = 0
    · simp [hn]
    · rw [if_neg (by omega)]
      rw [List.sum_cons, ih (n - cs) (by omega)]
      omega

/-- The number of blocks is `ceil(n / cs)`. -/
theorem chunkSizes_length (cs n : Nat) :
    (chunkSizes cs n).length = (n + cs - 1) / cs := by
  unfold chunkSizes
  generalize (n + cs - 1) / cs = fuel
  induction fuel generalizing n with
  | zero => rfl
  | succ f ih => simpa [chunkSizesAux] using ih (n - cs)

theorem map_pair_len (f : Nat → Name) :
    ∀ l : List (Nat × List Nat),
      ((l.map fun ic => ((f ic.1, ic.2) : Name × List Nat)).map
        fun w => w.2.length) = l.map fun ic => ic.2.length
  | [] => rfl
  | x :: xs => by simpa using map_pair_len f xs

theorem map_pair_fst (f : Nat → Name) :
    ∀ l : List (Nat × List Nat),
      ((l.map fun ic => ((f ic.1, ic.2) : Name × List Nat)).map Prod.fst)
        = l.map fun ic => f ic.1
  | [] => rfl
  | x :: xs => by simpa using map_pair_fst f xs

theorem enumFrom_map_sndLength :
    ∀ (n : Nat) (l : List (List Nat)),
      ((List.enumFrom n l).map fun ic => ic.2.length) = l.map List.length
  | _, [] => rfl
  | n, x :: xs => by simpa using enumFrom_map_sndLength (n + 1) xs

theorem enumFrom_map_fstF (f : Nat → Name) :
    ∀ (n : Nat) (l : List (List Nat)),
      ((List.enumFrom n l).map fun ic => f ic.1)
        = (List.range' n l.length).map f
  | _, [] => rfl
  | n, x :: xs => by
    simp only [List.enumFrom, List.length_cons, List.range']
    simpa using enumFrom_map_fstF f (n + 1) xs

/-- The block count as a direct corollary of the size abstraction. -/
theorem chunkContents_length_eq (cs : Nat) (data : List Nat) :
    (chunkContents cs data).length = (chunkSizes cs data.length).length := by
  rw [← chunkContents_map_length, List.length_map]

/-- C1: for a file larger than the threshold (in V2 the threshold and the
chunk size are the same configured value `cs`), `split_file` produces
chunks whose byte lengths sum to the original size, whose count is
`ceil(size / cs)`, whose names carry the contiguous sequence numbers
`1, 2, …` zero-padded to field width 3 (`pad3`, Python `{num:03d}`)
between the stem and the extension, and whose returned list is exactly
those names; after the successful split the original file no longer
exists on disk. -/
theorem C1_split_file_correct (d : Disk) (path : Name) (data : List Nat)
    (cs : Nat) (hfs : d path = some data) (hcs : 0 < cs)
    (hover : cs < data.length) :
    (splitFile d path cs none).raised = false ∧
    ((splitFile d path cs none).written.map fun w => w.2.length).sum
      = data.length ∧
    (splitFile d path cs none).written.length = (data.length + cs - 1) / cs ∧
    (splitFile d path cs none).written.map Prod.fst
      = (List.range' 1 (splitFile d path cs none).written.length).map
          (chunkName (splitStemExt path).1 (splitStemExt path).2) ∧
    (splitFile d path cs none).chunks
      = (splitFile d path cs none).written.map Prod.fst ∧
    (splitFile d path cs none).disk path = none := by
  have hwr : (splitFile d path cs none) =
      ⟨false,
       ((List.enumFrom 1 (chunkContents cs data)).map fun ic =>
         (chunkName (splitStemExt path).1 (splitStemExt path).2 ic.1, ic.2)).map (·.1),
       (List.enumFrom 1 (chunkContents cs data)).map fun ic =>
         (chunkName (splitStemExt path).1 (splitStemExt path).2 ic.1, ic.2),
       diskDel (writeSeq d ((List.enumFrom 1 (chunkContents cs data)).map fun ic =>
         (chunkName (splitStemExt path).1 (splitStemExt path).2 ic.1, ic.2))) path⟩ := by
    simp only [splitFile, hfs]
  rw [hwr]
  refine ⟨rfl, ?_, ?_, ?_, rfl, ?_⟩
  · rw [map_pair_len, enumFrom_map_sndLength, chunkContents_map_length,
      chunkSizes_sum cs hcs]
  · rw [List.length_map, List.enumFrom_length, chunkContents_length_eq,
      chunkSizes_length]
  · rw [map_pair_fst, enumFrom_map_fstF, List.length_map,
      List.enumFrom_length]
  · simp [diskDel]

/-- Witness for C1: splitting the 5-byte `b.bin` with chunk size 2. -/
theorem C1_split_file_correct_witness :
    (bDisk "b.bin".toList = some [7, 7, 7, 7, 7] ∧ 0 < 2 ∧
      2 < ([7, 7, 7, 7, 7] : List Nat).length) ∧
    ((splitFile bDisk "b.bin".toList 2 none).raised = false ∧
     ((splitFile bDisk "b.bin".toList 2 none).written.map
        fun w => w.2.length).sum = ([7, 7, 7, 7, 7] : List Nat).length ∧
     (splitFile bDisk "b.bin".toList 2 none).written.length
       = (([7, 7, 7, 7, 7] : List Nat).length + 2 - 1) / 2 ∧
     (splitFile bDisk "b.bin".toList 2 none).written.map Prod.fst
       = (List.range' 1
           (splitFile bDisk "b.bin".toList 2 none).written.length).map
           (chunkName (splitStemExt "b.bin".toList).1
             (splitStemExt "b.bin".toList).2) ∧
     (splitFile bDisk "b.bin".toList 2 none).chunks
       = (splitFile bDisk "b.bin".toList 2 none).written.map Prod.fst ∧
     (splitFile bDisk "b.bin".toList 2 none).disk "b.bin".toList = none) :=
  ⟨⟨by decide, by decide, by decide⟩,
   C1_split_file_correct bDisk "b.bin".toList [7, 7, 7, 7, 7] 2
     (by decide) (by decide) (by decide)⟩

/-- C2 (code bug): `split_file` is not all-or-nothing.  With `b.bin` of
5 bytes and chunk size 2, a failure injected into the write of chunk 2
leaves `b_part002.bin` on disk after the exception propagates: the file was
created by `open(chunk_file, "wb")` before `chunk.write` raised, but the
cleanup loop only unlinks the files already appended to the `chunks` list
(chunks 1..k-1).  The original is untouched and chunk 1 is removed, yet one
chunk file created during the attempt remains, contradicting the claimed
"zero chunk files remain". -/
theorem C2_partial_chunk_left_on_disk :
    (splitFile bDisk "b.bin".toList 2 (some 2)).raised = true ∧
    (splitFile bDisk "b.bin".toList 2 (some 2)).disk "b_part002.bin".toList
      = some [] ∧
    "b_part002.bin".toList ≠ "b.bin".toList ∧
    (splitFile bDisk "b.bin".toList 2 (some 2)).disk "b_part001.bin".toList
      = none ∧
    (splitFile bDisk "b.bin".toList 2 (some 2)).disk "b.bin".toList
      = some [7, 7, 7, 7, 7] := by
  refine ⟨by decide, by decide, by decide, by decide, by decide⟩

/-- C3: when the push fails on attempts 1 and 2 and succeeds on attempt 3
(`MAX_RETRIES = 3`), the retry loop returns success and issues exactly the
events push-fail, pull, push-fail, pull, push-success — a reconciliation
pull is attempted between attempts 1 and 2 and between attempts 2 and 3,
and this holds for every pull oracle, so a failing pull does not abort the
loop; moreover `commit_and_push` reports every batch as succeeded under
these push outcomes. -/
theorem C3_retry_then_succeed (g : GitOracles)
    (h0 : g.pushOk 0 = false) (h1 : g.pushOk 1 = false)
    (h2 : g.pushOk 2 = true) :
    pushRetry 3 g.pushOk g.pullOk =
      (some true,
       [.pushAttempt 0 false, .pullAttempt 0 (g.pullOk 0),
        .pushAttempt 1 false, .pullAttempt 1 (g.pullOk 1),
        .pushAttempt 2 true]) ∧
    ∀ batch, (commitAndPush 3 g batch).1 = true := by
  have hpr : pushRetry 3 g.pushOk g.pullOk =
      (some true,
       [.pushAttempt 0 false, .pullAttempt 0 (g.pullOk 0),
        .pushAttempt 1 false, .pullAttempt 1 (g.pullOk 1),
        .pushAttempt 2 true]) := by
    simp [pushRetry, pushRetryAux, h0, h1, h2]
  refine ⟨hpr, fun batch => ?_⟩
  unfold commitAndPush
  by_cases hb : batch.isEmpty
  · simp [hb]
  · simp only [hb, if_false]
    have hone : ∀ folder files,
        (commitFolderGroup 3 g folder files).1 = true := by
      intro folder files
      unfold commitFolderGroup
      rw [hpr]
      rfl
    generalize folderGroups batch = gs
    have : ∀ (l : List (List Name × List (List Name × Nat))) (b : Bool),
        ((l.map fun gr => commitFolderGroup 3 g gr.1 gr.2).foldl
          (fun b r => b && r.1) b) = b := by
      intro l
      induction l with
      | nil => intro b; rfl
      | cons x xs ih =>
        intro b
        simp only [List.map_cons, List.foldl_cons, hone x.1 x.2, Bool.and_true]
        exact ih b
    exact this gs true

/-- Witness for C3 at concrete oracles: pushes succeed only on attempt 2
(0-based). -/
theorem C3_retry_then_succeed_witness :
    ((⟨fun k => k = 2, fun _ => false, fun _ => "", fun _ => true,
        fun _ => ""⟩ : GitOracles).pushOk 0 = false ∧
     (⟨fun k => k = 2, fun _ => false, fun _ => "", fun _ => true,
        fun _ => ""⟩ : GitOracles).pushOk 1 = false ∧
     (⟨fun k => k = 2, fun _ => false, fun _ => "", fun _ => true,
        fun _ => ""⟩ : GitOracles).pushOk 2 = true) ∧
    (pushRetry 3
        (⟨fun k => k = 2, fun _ => false, fun _ => "", fun _ => true,
          fun _ => ""⟩ : GitOracles).pushOk
        (⟨fun k => k = 2, fun _ => false, fun _ => "", fun _ => true,
          fun _ => ""⟩ : GitOracles).pullOk =
      (some true,
       [.pushAttempt 0 false,
        .pullAttempt 0 ((⟨fun k => k = 2, fun _ => false, fun _ => "",
          fun _ => true, fun _ => ""⟩ : GitOracles).pullOk 0),
        .pushAttempt 1 false,
        .pullAttempt 1 ((⟨fun k => k = 2, fun _ => false, fun _ => "",
          fun _ => true, fun _ => ""⟩ : GitOracles).pullOk 1),
        .pushAttempt 2 true]) ∧
     ∀ batch, (commitAndPush 3
        (⟨fun k => k = 2, fun _ => false, fun _ => "", fun _ => true,
          fun _ => ""⟩ : GitOracles) batch).1 = true) :=
  ⟨⟨by decide, by decide, by decide⟩,
   C3_retry_then_succeed _ (by decide) (by decide) (by decide)⟩

/-! ### Folder grouping lemmas for C4 -/

/-- The items of every group, concatenated. -/
def groupsVals (gs : List (List Name × List (List Name × Nat))) :
    List (List Name × Nat) :=
  gs.flatMap (·.2)

theorem addToGroup_vals_perm (gs : List (List Name × List (List Name × Nat)))
    (f : List Name) (it : List Name × Nat) :
    (groupsVals (addToGroup gs f it)).Perm (groupsVals gs ++ [it]) := by
  induction gs with
  | nil => simp [addToGroup, groupsVals]
  | cons g rest ih =>
    cases g with
    | mk g1 l =>
      by_cases hg : g1 = f
      · simp only [addToGroup, if_pos hg, groupsVals, List.flatMap_cons]
        rw [List.append_assoc, List.append_assoc]
        exact List.Perm.append_left l List.perm_append_comm
      · simp only [addToGroup, if_neg hg, groupsVals, List.flatMap_cons]
        rw [List.append_assoc]
        exact List.Perm.append_left l
          (by simpa [groupsVals] using ih)

theorem foldl_addToGroup_perm (batch : List (List Name × Nat)) :
    ∀ acc, (groupsVals (batch.foldl
      (fun a it => addToGroup a (folderOf it.1) it) acc)).Perm
        (groupsVals acc ++ batch) := by
  induction batch with
  | nil => intro acc; simp
  | cons it bs ih =>
    intro acc
    rw [List.foldl_cons]
    refine (ih (addToGroup acc (folderOf it.1) it)).trans ?_
    have h1 := (addToGroup_vals_perm acc (folderOf it.1) it).append_right bs
    rw [List.append_assoc] at h1
    exact h1

/-- The folder grouping of `commit_and_push` partitions the batch: the
groups' concatenation is a permutation of the batch. -/
theorem folderGroups_vals_perm (batch : List (List Name × Nat)) :
    (groupsVals (folderGroups batch)).Perm batch := by
  have := foldl_addToGroup_perm batch []
  simpa [folderGroups, groupsVals] using this

theorem addToGroup_ne_nil (gs : List (List Name × List (List Name × Nat)))
    (f : List Name) (it : List Name × Nat) : addToGroup gs f it ≠ [] := by
  cases gs with
  | nil => simp [addToGroup]
  | cons g rest =>
    cases g with
    | mk g1 l =>
      simp only [addToGroup]
      by_cases hg : g1 = f <;> simp [hg]

theorem folderGroups_ne_nil (batch : List (List Name × Nat))
    (hne : batch ≠ []) : folderGroups batch ≠ [] := by
  have key : ∀ (bs : List (List Name × Nat))
      (acc : List (List Name × List (List Name × Nat))), acc ≠ [] →
      bs.foldl (fun a it => addToGroup a (folderOf it.1) it) acc ≠ [] := by
    intro bs
    induction bs with
    | nil => intro acc h; exact h
    | cons it rest ih =>
      intro acc _
      rw [List.foldl_cons]
      exact ih _ (addToGroup_ne_nil acc (folderOf it.1) it)
  cases batch with
  | nil => exact absurd rfl hne
  | cons it bs =>
    unfold folderGroups
    rw [List.foldl_cons]
    exact key bs _ (addToGroup_ne_nil [] (folderOf it.1) it)

/-- With every push attempt failing, the retry loop returns `False`. -/
theorem pushRetry_all_fail (g : GitOracles)
    (hpush : ∀ k, g.pushOk k = false) :
    pushRetry 3 g.pushOk g.pullOk =
      (some false,
       [.pushAttempt 0 false, .pullAttempt 0 (g.pullOk 0),
        .pushAttempt 1 false, .pullAttempt 1 (g.pullOk 1),
        .pushAttempt 2 false]) := by
  simp [pushRetry, pushRetryAux, hpush 0, hpush 1, hpush 2]

/-- With every push failing and staging clean, one folder group fails and
records every file with the last attempt's error text. -/
theorem commitFolderGroup_all_fail (g : GitOracles)
    (hpush : ∀ k, g.pushOk k = false) (hstage : ∀ p, g.stageOk p = true)
    (folder : List Name) (files : List (List Name × Nat)) :
    commitFolderGroup 3 g folder files =
      (false, files.map fun fl => (fl.1, g.pushErr 2),
       files.map (fun fl => GEvent.stage fl.1) ++ GEvent.commitGroup folder ::
         [.pushAttempt 0 false, .pullAttempt 0 (g.pullOk 0),
          .pushAttempt 1 false, .pullAttempt 1 (g.pullOk 1),
          .pushAttempt 2 false]) := by
  have hsf : (files.filterMap fun f =>
      if g.stageOk f.1 = true then none else some (f.1, g.stageErr f.1))
      = ([] : List FailRec) := by
    induction files with
    | nil => rfl
    | cons x xs ih => simp [hstage x.1, ih]
  have hse : (files.filterMap fun f =>
      if g.stageOk f.1 = true then some (GEvent.stage f.1) else none)
      = files.map fun fl => GEvent.stage fl.1 := by
    clear hsf
    induction files with
    | nil => rfl
    | cons x xs ih => simp [hstage x.1, ih]
  unfold commitFolderGroup
  rw [pushRetry_all_fail g hpush, hsf, hse]
  rfl

theorem countP_eq_one_of_nodup_mem {α : Type} [DecidableEq α] :
    ∀ (l : List α) (p : α), l.Nodup → p ∈ l →
      l.countP (fun q => q = p) = 1 := by
  intro l p hnd hp
  induction l with
  | nil => simp at hp
  | cons x xs ih =>
    rw [List.countP_cons]
    rcases List.mem_cons.mp hp with h | h
    · subst h
      have hnot : p ∉ xs := (List.nodup_cons.mp hnd).1
      have h0 : xs.countP (fun q => decide (q = p)) = 0 := by
        rw [List.countP_eq_zero]
        intro a ha
        simp only [decide_eq_true_eq]
        exact fun he => hnot (he ▸ ha)
      simpa using h0
    · have hxp : ¬(x = p) := fun he =>
        (List.nodup_cons.mp hnd).1 (he ▸ h)
      have hrec := ih (List.nodup_cons.mp hnd).2 h
      simpa [hxp] using hrec

theorem map_pairE_fst (e : String) :
    ∀ l : List (List Name × Nat),
      ((l.map fun fl => ((fl.1, e) : FailRec)).map Prod.fst) = l.map (·.1)
  | [] => rfl
  | x :: xs => by simpa using map_pairE_fst e xs

/-- With every push failing and staging clean, `commit_and_push` on a
nonempty batch returns `False` and its failure records are the grouped
batch items, each with the last attempt's error text. -/
theorem commitAndPush_all_fail (g : GitOracles)
    (hpush : ∀ k, g.pushOk k = false) (hstage : ∀ p, g.stageOk p = true)
    (batch : List (List Name × Nat)) (hne : batch ≠ []) :
    (commitAndPush 3 g batch).1 = false ∧
    (commitAndPush 3 g batch).2.1
      = (groupsVals (folderGroups batch)).map fun fl => (fl.1, g.pushErr 2) := by
  have hb : batch.isEmpty = false := by
    cases batch with
    | nil => exact absurd rfl hne
    | cons x xs => rfl
  have hconst : ∀ (rs : List (Bool × List FailRec × List GEvent)),
      rs.foldl (fun b r => b && r.1) false = false := by
    intro rs
    induction rs with
    | nil => rfl
    | cons r rest ih => simpa using ih
  unfold commitAndPush
  rw [hb]
  simp only [Bool.false_eq_true, if_false]
  constructor
  · have hgs := folderGroups_ne_nil batch hne
    cases hgs2 : folderGroups batch with
    | nil => exact absurd hgs2 hgs
    | cons x xs =>
      simp only [List.map_cons, List.foldl_cons,
        commitFolderGroup_all_fail g hpush hstage x.1 x.2, Bool.and_false]
      exact hconst _
  · have hf : ∀ gs : List (List Name × List (List Name × Nat)),
        ((gs.map fun gr => commitFolderGroup 3 g gr.1 gr.2).flatMap
          fun r => r.2.1)
          = (groupsVals gs).map fun fl => (fl.1, g.pushErr 2) := by
      intro gs
      induction gs with
      | nil => rfl
      | cons x xs ih =>
        simp [commitFolderGroup_all_fail g hpush hstage x.1 x.2,
          groupsVals, ih]
    exact hf (folderGroups batch)

/-- The batch / flush bookkeeping of one loop iteration does not depend on
the git oracles: `cur`, `flushed` and `nflush` evolve identically under any
two oracle families. -/
theorem stepItem_oracle_proj (cfg : Config) (procOk : List Name → Bool)
    (git git' : Nat → GitOracles) (it : Item) (st st' : WState)
    (hc : st.cur = st'.cur) (hf : st.flushed = st'.flushed)
    (hn : st.nflush = st'.nflush) :
    (stepItem cfg git procOk st it).cur = (stepItem cfg git' procOk st' it).cur ∧
    (stepItem cfg git procOk st it).flushed
      = (stepItem cfg git' procOk st' it).flushed ∧
    (stepItem cfg git procOk st it).nflush
      = (stepItem cfg git' procOk st' it).nflush := by
  unfold stepItem flushBatch
  by_cases h1 : shouldIgnore (itemName it) it.isDir cfg.patterns = true
  · simp [h1, hc, hf, hn]
  · simp only [h1, Bool.false_eq_true, if_false]
    by_cases h2 : it.isDir = true
    · simp [h2, hc, hf, hn]
    · simp only [h2, Bool.false_eq_true, if_false]
      by_cases h3 : (processFile cfg.maxSize procOk it).1.isEmpty = true
      · simp [h3, hc, hf, hn]
      · simp only [h3, Bool.false_eq_true, if_false, hc]
        by_cases h4 : cfg.batchSize ≤ st'.cur.length +
            (processFile cfg.maxSize procOk it).1.length
        · simp only [List.length_append, hc] at h4 ⊢
          rw [if_pos h4, if_pos h4]
          exact ⟨rfl, by simp [hf], by simp [hn]⟩
        · simp only [List.length_append, hc] at h4 ⊢
          rw [if_neg h4, if_neg h4]
          exact ⟨rfl, by simp [hf], by simp [hn]⟩

theorem runLoop_oracle_proj (cfg : Config) (procOk : List Name → Bool)
    (git git' : Nat → GitOracles) (stopAt : Option Nat) :
    ∀ (items : List Item) (i : Nat) (st st' : WState),
      st.cur = st'.cur → st.flushed = st'.flushed → st.nflush = st'.nflush →
      (runLoop cfg git procOk stopAt i st items).cur
        = (runLoop cfg git' procOk stopAt i st' items).cur ∧
      (runLoop cfg git procOk stopAt i st items).flushed
        = (runLoop cfg git' procOk stopAt i st' items).flushed ∧
      (runLoop cfg git procOk stopAt i st items).nflush
        = (runLoop cfg git' procOk stopAt i st' items).nflush := by
  intro items
  induction items with
  | nil => intro i st st' hc hf hn; exact ⟨hc, hf, hn⟩
  | cons it rest ih =>
    intro i st st' hc hf hn
    unfold runLoop
    by_cases hs : stopRead stopAt i = true
    · simp [hs, hc, hf, hn]
    · simp only [hs, Bool.false_eq_true, if_false]
      obtain ⟨hc', hf', hn'⟩ :=
        stepItem_oracle_proj cfg procOk git git' it st st' hc hf hn
      exact ih (i + 1) _ _ hc' hf' hn'

/-- The flushed batches of a whole run do not depend on the git oracles:
a failing batch does not abort the session, which keeps processing the
remaining entries and batches exactly as a fully successful run would. -/
theorem runWorker_flushed_oracle_independent (cfg : Config)
    (procOk : List Name → Bool) (git git' : Nat → GitOracles)
    (items : List Item) (stopAt : Option Nat) :
    (runWorker cfg git procOk items stopAt).flushed
      = (runWorker cfg git' procOk items stopAt).flushed := by
  obtain ⟨hc, hf, hn⟩ := runLoop_oracle_proj cfg procOk git git' stopAt items
    0 initState initState rfl rfl rfl
  simp only [runWorker]
  by_cases hcond : (runLoop cfg git procOk stopAt 0 initState items).cur.isEmpty
      = false ∧ stopRead stopAt items.length = false
  · rw [if_pos hcond, if_pos (by rw [← hc]; exact hcond)]
    show (flushBatch cfg git _).flushed = (flushBatch cfg git' _).flushed
    unfold flushBatch
    simp [hf, hc]
  · rw [if_neg hcond, if_neg (by rw [← hc]; exact hcond)]
    exact hf

/-- C4: when the push of a (nonempty, duplicate-free) batch fails on all 3
attempts, `commit_and_push` returns failure, every path of the batch is
recorded exactly once in `failed_commits`, each record carrying the error
text of the last attempt; and the session does not abort — the flushed
batches of the whole run are the same as under any other git oracles, so
subsequent entries and batches are still processed. -/
theorem C4_retry_exhaustion (g : GitOracles) (batch : List (List Name × Nat))
    (hpush : ∀ k, g.pushOk k = false) (hstage : ∀ p, g.stageOk p = true)
    (hne : batch ≠ []) (hnd : (batch.map (·.1)).Nodup) :
    (commitAndPush 3 g batch).1 = false ∧
    ((commitAndPush 3 g batch).2.1.map Prod.fst).Perm (batch.map (·.1)) ∧
    (∀ r ∈ (commitAndPush 3 g batch).2.1, r.2 = g.pushErr 2) ∧
    (∀ p ∈ batch.map (·.1),
      ((commitAndPush 3 g batch).2.1.map Prod.fst).countP (fun q => q = p)
        = 1) ∧
    ∀ (cfg : Config) (git git' : Nat → GitOracles)
      (procOk : List Name → Bool) (items : List Item) (stopAt : Option Nat),
      (runWorker cfg git procOk items stopAt).flushed
        = (runWorker cfg git' procOk items stopAt).flushed := by
  obtain ⟨hres, hrecs⟩ := commitAndPush_all_fail g hpush hstage batch hne
  have hperm : ((commitAndPush 3 g batch).2.1.map Prod.fst).Perm
      (batch.map (·.1)) := by
    rw [hrecs, map_pairE_fst]
    exact (folderGroups_vals_perm batch).map (·.1)
  refine ⟨hres, hperm, ?_, ?_, ?_⟩
  · intro r hr
    rw [hrecs] at hr
    obtain ⟨fl, _, hfl⟩ := List.mem_map.mp hr
    rw [← hfl]
  · intro p hp
    rw [hperm.countP_eq]
    exact countP_eq_one_of_nodup_mem _ p hnd hp
  · intro cfg git git' procOk items stopAt
    exact runWorker_flushed_oracle_independent cfg procOk git git' items stopAt

/-- Witness for C4 at concrete oracles and a concrete two-folder batch. -/
theorem C4_retry_exhaustion_witness :
    ((∀ k, failPushGit.pushOk k = false) ∧
     (∀ p, failPushGit.stageOk p = true) ∧
     twoBatch ≠ [] ∧ (twoBatch.map (·.1)).Nodup) ∧
    ((commitAndPush 3 failPushGit twoBatch).1 = false ∧
     ((commitAndPush 3 failPushGit twoBatch).2.1.map Prod.fst).Perm
       (twoBatch.map (·.1)) ∧
     (∀ r ∈ (commitAndPush 3 failPushGit twoBatch).2.1,
       r.2 = failPushGit.pushErr 2) ∧
     (∀ p ∈ twoBatch.map (·.1),
       ((commitAndPush 3 failPushGit twoBatch).2.1.map Prod.fst).countP
         (fun q => q = p) = 1) ∧
     ∀ (cfg : Config) (git git' : Nat → GitOracles)
       (procOk : List Name → Bool) (items : List Item) (stopAt : Option Nat),
       (runWorker cfg git procOk items stopAt).flushed
         = (runWorker cfg git' procOk items stopAt).flushed) :=
  ⟨⟨fun _ => rfl, fun _ => rfl, by decide, by decide⟩,
   C4_retry_exhaustion failPushGit twoBatch (fun _ => rfl) (fun _ => rfl)
     (by decide) (by decide)⟩

/-- C5 (code bug): the scan descends into ignored directories.  With the
rule `"Binaries"` and the tree `root/Binaries/x.bin`, `should_ignore`
does match the directory itself, but the worker iterates `rglob("*")`,
which yields every descendant, and filters each item only by its own
name: the `Binaries` entry is skipped, while `x.bin` inside it is not
matched by any rule, gets processed, lands in the flushed batch and is
staged — the claim says the scan result contains no entry for `x.bin`. -/
theorem C5_ignored_directory_still_scanned :
    shouldIgnore "Binaries".toList true ["Binaries".toList] = true ∧
    shouldIgnore "x.bin".toList false ["Binaries".toList] = false ∧
    (runWorker ⟨100, 10, ["Binaries".toList], 3⟩ (fun _ => okGit)
        (fun _ => true) (rglob binTree) none).flushed
      = [[(["Binaries".toList, "x.bin".toList], 5)]] ∧
    (runWorker ⟨100, 10, ["Binaries".toList], 3⟩ (fun _ => okGit)
        (fun _ => true) (rglob binTree) none).events
      = [.stage ["Binaries".toList, "x.bin".toList],
         .commitGroup ["Binaries".toList], .pushAttempt 0 true] := by
  have h : rglob binTree =
      [⟨["Binaries".toList], true, 0⟩,
       ⟨["Binaries".toList, "x.bin".toList], false, 5⟩] := by
    simp [rglob, binTree, rglobForest]
  refine ⟨by decide, by decide, ?_, ?_⟩ <;> rw [h] <;> rfl

/-- C7 counterexample: the claimed configuration "threshold 25 MB, chunk
size 20 MB" does not exist in V2 — `UploadWorker._process_file` uses the
single configured value both as threshold and as chunk size.  Running on
`a.bin` (10 MB), `b.bin` (30 MB) with that value at 25 MB, the batch is
not `[a.bin, b_part001.bin (20 MB), b_part002.bin (10 MB)]` as claimed. -/
theorem C7_twenty_ten_chunks_refuted :
    ¬ ((runWorker ⟨25 * MB, 10, [], 3⟩ (fun _ => okGit) (fun _ => true)
          (rglob abTree) none).flushed
        = [[(["a.bin".toList], 10 * MB), (["b_part001.bin".toList], 20 * MB),
            (["b_part002.bin".toList], 10 * MB)]]) := by
  have h : rglob abTree =
      [⟨["a.bin".toList], false, 10 * MB⟩,
       ⟨["b.bin".toList], false, 30 * MB⟩] := by
    simp [rglob, abTree, rglobForest]
  rw [h]
  decide

/-- C7 amended: with the single max-size/chunk-size parameter at 25 MB,
batch size 10, the run replaces `b.bin` by `b_part001.bin` of 25 MB and
`b_part002.bin` of 5 MB, the single flushed batch is
`[a.bin, b_part001.bin, b_part002.bin]`, and exactly one commit and one
push (succeeding at once) cover all three, with no failure record. -/
theorem C7_single_batch_one_commit_one_push :
    (runWorker ⟨25 * MB, 10, [], 3⟩ (fun _ => okGit) (fun _ => true)
        (rglob abTree) none).flushed
      = [[(["a.bin".toList], 10 * MB), (["b_part001.bin".toList], 25 * MB),
          (["b_part002.bin".toList], 5 * MB)]] ∧
    (runWorker ⟨25 * MB, 10, [], 3⟩ (fun _ => okGit) (fun _ => true)
        (rglob abTree) none).events
      = [.stage ["a.bin".toList], .stage ["b_part001.bin".toList],
         .stage ["b_part002.bin".toList], .commitGroup [],
         .pushAttempt 0 true] ∧
    (runWorker ⟨25 * MB, 10, [], 3⟩ (fun _ => okGit) (fun _ => true)
        (rglob abTree) none).gfails = [] := by
  have h : rglob abTree =
      [⟨["a.bin".toList], false, 10 * MB⟩,
       ⟨["b.bin".toList], false, 30 * MB⟩] := by
    simp [rglob, abTree, rglobForest]
  refine ⟨?_, ?_, ?_⟩ <;> rw [h] <;> rfl

/-- C8 counterexample: a session over the unchanged tree containing only
`a.bin` performs one `index.commit` call, not zero.  The worker re-batches
every scanned file regardless of git state and
`GitManager._commit_folder_group` calls `repo.index.commit`
unconditionally — GitPython creates the commit object even when nothing
changed — so running the session a second time over an unchanged tree does
perform a second commit, contrary to the claim. -/
theorem C8_second_run_commits_again :
    ¬ ((runWorker ⟨25 * MB, 10, [], 3⟩ (fun _ => okGit) (fun _ => true)
          (rglob aTree) none).events.countP isCommitEvt = 0) ∧
    (runWorker ⟨25 * MB, 10, [], 3⟩ (fun _ => okGit) (fun _ => true)
        (rglob aTree) none).events.countP isCommitEvt = 1 := by
  have h : rglob aTree = [⟨["a.bin".toList], false, 10 * MB⟩] := by
    simp [rglob, aTree, rglobForest]
  constructor <;> rw [h]
  · intro hc
    exact absurd hc (by decide)
  · rfl

/-- C8 amended: `commit_and_push` with an empty path list is a no-op
returning success, with no events, no records and no commit; but every
nonempty batch produces at least one `index.commit` call even when nothing
actually changed (the code has no staged-change check), which is why a
second session over an unchanged tree commits again. -/
theorem C8_empty_batch_noop_nonempty_commits (g : GitOracles)
    (b : List (List Name × Nat)) (hb : b ≠ []) :
    commitAndPush 3 g [] = (true, [], []) ∧
    0 < (commitAndPush 3 g b).2.2.countP isCommitEvt := by
  refine ⟨rfl, ?_⟩
  have hbe : b.isEmpty = false := by
    cases b with
    | nil => exact absurd rfl hb
    | cons x xs => rfl
  have hgs := folderGroups_ne_nil b hb
  cases hgs2 : folderGroups b with
  | nil => exact absurd hgs2 hgs
  | cons x xs =>
    simp only [commitAndPush, hbe, Bool.false_eq_true, if_false, hgs2,
      List.map_cons, List.flatMap_cons, List.countP_append]
    have hx : 0 < (commitFolderGroup 3 g x.1 x.2).2.2.countP isCommitEvt := by
      simp only [commitFolderGroup, List.countP_append, List.countP_cons]
      have : isCommitEvt (GEvent.commitGroup x.1) = true := rfl
      simp only [this, if_pos]
      omega
    omega

/-- Witness for the amended C8 at a concrete nonempty batch. -/
theorem C8_empty_batch_noop_nonempty_commits_witness :
    (([(["a.bin".toList], 5)] : List (List Name × Nat)) ≠ []) ∧
    (commitAndPush 3 okGit [] = (true, [], []) ∧
     0 < (commitAndPush 3 okGit
        [(["a.bin".toList], 5)]).2.2.countP isCommitEvt) :=
  ⟨by decide,
   C8_empty_batch_noop_nonempty_commits okGit [(["a.bin".toList], 5)]
     (by decide)⟩

/-- Observing the stop flag at iteration `s` truncates the loop to the
first `s` items, run exactly as an unstopped loop. -/
theorem runLoop_stop_take (cfg : Config) (git : Nat → GitOracles)
    (procOk : List Name → Bool) (s : Nat) :
    ∀ (items : List Item) (i : Nat) (st : WState),
      runLoop cfg git procOk (some s) i st items
        = runLoop cfg git procOk none i st (items.take (s - i)) := by
  intro items
  induction items with
  | nil =>
    intro i st
    rw [List.take_nil]
    rfl
  | cons it rest ih =>
    intro i st
    by_cases hs : s ≤ i
    · have h1 : stopRead (some s) i = true := by
        simp [stopRead]
        omega
      have h2 : s - i = 0 := by omega
      rw [h2, List.take_zero]
      simp only [runLoop, h1, if_pos]
    · have h1 : stopRead (some s) i = false := by
        simp [stopRead]
        omega
      have h2 : s - i = (s - (i + 1)) + 1 := by omega
      rw [h2, List.take_succ_cons]
      have h0 : stopRead none i = false := rfl
      simp only [runLoop, h1, h0, Bool.false_eq_true, if_false]
      exact ih (i + 1) (stepItem cfg git procOk st it)

/-- C9: when cancellation is requested before iteration `s` (and observed
at an entry boundary, `s ≤ |items|`), the run state equals the plain loop
state over exactly the first `s` items with the stopped flag set: every
batch flushed before the observation ran to completion with all its git
events, no `commit_and_push` call happens afterwards, and the batch under
accumulation is left in `cur` — discarded, never flushed, committed or
pushed (src/V2/ui/worker.py lines 50-51 and 73-75). -/
theorem C9_cancellation_discards_accumulating_batch (cfg : Config)
    (git : Nat → GitOracles) (procOk : List Name → Bool)
    (items : List Item) (s : Nat) (hs : s ≤ items.length) :
    runWorker cfg git procOk items (some s)
      = { runLoop cfg git procOk none 0 initState (items.take s) with
          stopped := true } := by
  have h1 : runLoop cfg git procOk (some s) 0 initState items
      = runLoop cfg git procOk none 0 initState (items.take s) := by
    have h := runLoop_stop_take cfg git procOk s items 0 initState
    simpa using h
  have h2 : stopRead (some s) items.length = true := by
    simp [stopRead]
    omega
  simp only [runWorker, h1, h2]
  simp

/-- Witness for C9: three files, batch size 1, stop observed at entry 2. -/
theorem C9_cancellation_discards_accumulating_batch_witness :
    (2 ≤ threeItems.length) ∧
    runWorker ⟨100, 1, [], 3⟩ (fun _ => okGit) (fun _ => true) threeItems
        (some 2)
      = { runLoop ⟨100, 1, [], 3⟩ (fun _ => okGit) (fun _ => true) none 0
            initState (threeItems.take 2) with stopped := true } :=
  ⟨by decide,
   C9_cancellation_discards_accumulating_batch ⟨100, 1, [], 3⟩
     (fun _ => okGit) (fun _ => true) threeItems 2 (by decide)⟩

/-- One loop iteration conserves the processed entries: the flushed
batches joined with the batch under accumulation grow by exactly the
item's output. -/
theorem stepItem_join (cfg : Config) (git : Nat → GitOracles)
    (procOk : List Name → Bool) (st : WState) (it : Item) :
    (stepItem cfg git procOk st it).flushed.flatten
        ++ (stepItem cfg git procOk st it).cur
      = st.flushed.flatten ++ st.cur ++ outputOf cfg procOk it := by
  unfold stepItem outputOf flushBatch
  by_cases h1 : shouldIgnore (itemName it) it.isDir cfg.patterns = true
  · simp [h1]
  · simp only [h1, Bool.false_eq_true, if_false]
    by_cases h2 : it.isDir = true
    · simp [h2]
    · simp only [h2, Bool.false_eq_true, if_false]
      by_cases h3 : (processFile cfg.maxSize procOk it).1.isEmpty = true
      · have h3' : (processFile cfg.maxSize procOk it).1 = [] :=
          List.isEmpty_iff.mp h3
        simp [h3, h3']
      · simp only [h3, Bool.false_eq_true, if_false]
        by_cases h4 : cfg.batchSize ≤
            st.cur.length + (processFile cfg.maxSize procOk it).1.length
        · simp only [List.length_append]
          rw [if_pos h4]
          simp [List.flatten_append, List.append_assoc]
        · simp only [List.length_append]
          rw [if_neg h4]
          simp [List.append_assoc]

theorem runLoop_join (cfg : Config) (git : Nat → GitOracles)
    (procOk : List Name → Bool) :
    ∀ (items : List Item) (i : Nat) (st : WState),
      (runLoop cfg git procOk none i st items).flushed.flatten
          ++ (runLoop cfg git procOk none i st items).cur
        = st.flushed.flatten ++ st.cur
            ++ items.flatMap (outputOf cfg procOk) := by
  intro items
  induction items with
  | nil => intro i st; simp [runLoop]
  | cons it rest ih =>
    intro i st
    have h0 : stopRead none i = false := rfl
    simp only [runLoop, h0, Bool.false_eq_true, if_false]
    rw [ih (i + 1) (stepItem cfg git procOk st it), stepItem_join,
      List.flatMap_cons, List.append_assoc]

/-- A complete (never stopped) run flushes exactly the concatenation of
the items' outputs, in scan order. -/
theorem runWorker_join (cfg : Config) (git : Nat → GitOracles)
    (procOk : List Name → Bool) (items : List Item) :
    (runWorker cfg git procOk items none).flushed.flatten
      = items.flatMap (outputOf cfg procOk) := by
  have h := runLoop_join cfg git procOk items 0 initState
  have hinit : initState.flushed.flatten ++ initState.cur
      ++ items.flatMap (outputOf cfg procOk)
      = items.flatMap (outputOf cfg procOk) := by
    simp [initState]
  rw [hinit] at h
  simp only [runWorker]
  by_cases hcur : (runLoop cfg git procOk none 0 initState items).cur.isEmpty
      = false
  · rw [if_pos ⟨hcur, rfl⟩]
    show ((runLoop cfg git procOk none 0 initState items).flushed
        ++ [(runLoop cfg git procOk none 0 initState items).cur]).flatten = _
    rw [List.flatten_append, ← h]
    simp
  · have hcur' : (runLoop cfg git procOk none 0 initState items).cur = [] := by
      rcases hc2 : (runLoop cfg git procOk none 0 initState items).cur with _ | _
      · rfl
      · rw [hc2] at hcur; exact absurd rfl hcur
    rw [if_neg (fun hc => hcur hc.1)]
    show (runLoop cfg git procOk none 0 initState items).flushed.flatten = _
    rw [← h, hcur']
    simp

theorem sum_zero_all_zero :
    ∀ l : List Nat, l.sum = 0 → ∀ x ∈ l, x = 0 := by
  intro l
  induction l with
  | nil => intro _ x hx; simp at hx
  | cons a as ih =>
    intro h x hx
    rw [List.sum_cons] at h
    rcases List.mem_cons.mp hx with h1 | h1
    · omega
    · exact ih (by omega) x h1

theorem countP_flatMap_zero {α β : Type} (out : α → List β) (q : β → Bool) :
    ∀ l : List α, (∀ x ∈ l, (out x).countP q = 0) →
      (l.flatMap out).countP q = 0 := by
  intro l
  induction l with
  | nil => intro _; rfl
  | cons x xs ih =>
    intro h
    rw [List.flatMap_cons, List.countP_append, h x (by simp),
      ih fun y hy => h y (by simp [hy])]

/-- If exactly one list element is `it` and no other element contributes a
`q`-entry, the flat map counts exactly the `q`-entries of `it`. -/
theorem countP_flatMap_unique {α β : Type} [DecidableEq α]
    (out : α → List β) (q : β → Bool) :
    ∀ (items : List α) (it : α),
      items.countP (fun x => x = it) = 1 →
      (∀ x ∈ items, x ≠ it → (out x).countP q = 0) →
      (items.flatMap out).countP q = (out it).countP q := by
  intro items
  induction items with
  | nil => intro it h _; simp at h
  | cons x xs ih =>
    intro it h1 h2
    rw [List.flatMap_cons, List.countP_append]
    by_cases hx : x = it
    · subst hx
      rw [List.countP_cons] at h1
      simp at h1
      have hall : ∀ y ∈ xs, y ≠ x := h1
      have h0 : (xs.flatMap out).countP q = 0 :=
        countP_flatMap_zero out q xs fun y hy =>
          h2 y (by simp [hy]) (hall y hy)
      omega
    · rw [List.countP_cons] at h1
      simp only [hx, decide_eq_true_eq, if_false] at h1
      have h0 : (out x).countP q = 0 := h2 x (by simp) hx
      rw [h0, ih it (by simpa using h1) fun y hy => h2 y (by simp [hy])]
      omega

/-- If the per-batch counts sum to one, exactly one batch has a nonzero
count. -/
theorem batches_countP_one {β : Type} (q : β → Bool) :
    ∀ L : List (List β),
      (L.map fun b => b.countP q).sum = 1 →
      L.countP (fun b => b.countP q != 0) = 1 := by
  intro L
  induction L with
  | nil => intro h; simp at h
  | cons b L ih =>
    intro h
    rw [List.map_cons, List.sum_cons] at h
    rw [List.countP_cons]
    by_cases hb : b.countP q = 0
    · rw [hb] at h
      simp only [Nat.zero_add] at h
      simp [hb, ih h]
    · have hb1 : b.countP q = 1 ∧ (L.map fun c => c.countP q).sum = 0 := by
        omega
      have hz : ∀ c ∈ L, c.countP q = 0 := by
        intro c hc
        have hm : c.countP q ∈ L.map fun c => c.countP q :=
          List.mem_map.mpr ⟨c, hc, rfl⟩
        exact sum_zero_all_zero _ hb1.2 _ hm
      have hL : L.countP (fun c => c.countP q != 0) = 0 := by
        rw [List.countP_eq_zero]
        intro c hc
        simp [hz c hc]
      simp [hL, hb1.1]

/-- Appending one batch to the committed sequence appends its events. -/
theorem eventsFrom_append (cfg : Config) (git : Nat → GitOracles)
    (b : List (List Name × Nat)) :
    ∀ (L : List (List (List Name × Nat))) (n : Nat),
      eventsFrom cfg git n (L ++ [b])
        = eventsFrom cfg git n L
            ++ (commitAndPush cfg.maxR (git (n + L.length)) b).2.2 := by
  intro L
  induction L with
  | nil => intro n; simp [eventsFrom]
  | cons c cs ih =>
    intro n
    have hstep : eventsFrom cfg git n ((c :: cs) ++ [b])
        = (commitAndPush cfg.maxR (git n) c).2.2
            ++ eventsFrom cfg git (n + 1) (cs ++ [b]) := rfl
    have hstep2 : eventsFrom cfg git n (c :: cs)
        = (commitAndPush cfg.maxR (git n) c).2.2
            ++ eventsFrom cfg git (n + 1) cs := rfl
    rw [hstep, hstep2, ih (n + 1), List.append_assoc]
    have hlen : n + 1 + cs.length = n + (c :: cs).length := by
      simp only [List.length_cons]
      omega
    rw [hlen]

theorem stepItem_events (cfg : Config) (git : Nat → GitOracles)
    (procOk : List Name → Bool) (st : WState) (it : Item)
    (hn : st.nflush = st.flushed.length)
    (he : st.events = eventsFrom cfg git 0 st.flushed) :
    (stepItem cfg git procOk st it).nflush
        = (stepItem cfg git procOk st it).flushed.length ∧
    (stepItem cfg git procOk st it).events
        = eventsFrom cfg git 0 (stepItem cfg git procOk st it).flushed := by
  unfold stepItem flushBatch
  by_cases h1 : shouldIgnore (itemName it) it.isDir cfg.patterns = true
  · simp [h1, hn, he]
  · simp only [h1, Bool.false_eq_true, if_false]
    by_cases h2 : it.isDir = true
    · simp [h2, hn, he]
    · simp only [h2, Bool.false_eq_true, if_false]
      by_cases h3 : (processFile cfg.maxSize procOk it).1.isEmpty = true
      · simp [h3, hn, he]
      · simp only [h3, Bool.false_eq_true, if_false]
        by_cases h4 : cfg.batchSize ≤
            st.cur.length + (processFile cfg.maxSize procOk it).1.length
        · simp only [List.length_append]
          rw [if_pos h4]
          constructor
          · simp [hn]
          · simp only [eventsFrom_append, List.length_append,
              List.length_cons, he, hn]
            simp
        · simp only [List.length_append]
          rw [if_neg h4]
          exact ⟨hn, he⟩

theorem runLoop_events (cfg : Config) (git : Nat → GitOracles)
    (procOk : List Name → Bool) (stopAt : Option Nat) :
    ∀ (items : List Item) (i : Nat) (st : WState),
      st.nflush = st.flushed.length →
      st.events = eventsFrom cfg git 0 st.flushed →
      (runLoop cfg git procOk stopAt i st items).nflush
          = (runLoop cfg git procOk stopAt i st items).flushed.length ∧
      (runLoop cfg git procOk stopAt i st items).events
          = eventsFrom cfg git 0
              (runLoop cfg git procOk stopAt i st items).flushed := by
  intro items
  induction items with
  | nil => intro i st hn he; exact ⟨hn, he⟩
  | cons it rest ih =>
    intro i st hn he
    by_cases hs : stopRead stopAt i = true
    · simp only [runLoop, hs, if_pos]
      exact ⟨hn, he⟩
    · simp only [runLoop, hs, Bool.false_eq_true, if_false]
      obtain ⟨hn2, he2⟩ := stepItem_events cfg git procOk st it hn he
      exact ih (i + 1) _ hn2 he2

/-- The events of a whole run are exactly the `commit_and_push` events of
its flushed batches, in order. -/
theorem runWorker_events (cfg : Config) (git : Nat → GitOracles)
    (procOk : List Name → Bool) (items : List Item) (stopAt : Option Nat) :
    (runWorker cfg git procOk items stopAt).events
      = eventsFrom cfg git 0 (runWorker cfg git procOk items stopAt).flushed := by
  obtain ⟨hn, he⟩ := runLoop_events cfg git procOk stopAt items 0 initState
    rfl rfl
  simp only [runWorker]
  by_cases hcond : (runLoop cfg git procOk stopAt 0 initState items).cur.isEmpty
      = false ∧ stopRead stopAt items.length = false
  · rw [if_pos hcond]
    show (flushBatch cfg git _).events = eventsFrom cfg git 0 (flushBatch cfg git _).flushed
    unfold flushBatch
    simp only [eventsFrom_append, he, hn]
    simp
  · rw [if_neg hcond]
    exact he

/-- The push retry loop issues no staging events. -/
theorem pushRetryAux_no_stage (maxR : Nat) (po pl : Nat → Bool)
    (p : List Name) :
    ∀ (fuel k : Nat),
      (pushRetryAux maxR po pl k fuel).2.countP (isStageEvt p) = 0 := by
  intro fuel
  induction fuel with
  | zero => intro k; rfl
  | succ f ih =>
    intro k
    simp only [pushRetryAux]
    by_cases h1 : po k = true
    · simp [h1, isStageEvt]
    · simp only [h1, Bool.false_eq_true, if_false]
      by_cases h2 : k = maxR - 1
      · simp [h2, isStageEvt]
      · simp only [h2, if_false]
        simp [List.countP_cons, isStageEvt, ih (k + 1)]

/-- One folder group stages each of its files exactly as often as the file
occurs in it (with staging succeeding). -/
theorem commitFolderGroup_stage_count (maxR : Nat) (g : GitOracles)
    (p : List Name) (hstage : ∀ q, g.stageOk q = true)
    (folder : List Name) (files : List (List Name × Nat)) :
    (commitFolderGroup maxR g folder files).2.2.countP (isStageEvt p)
      = files.countP fun e => e.1 = p := by
  have hse : (files.filterMap fun f =>
      if g.stageOk f.1 = true then some (GEvent.stage f.1) else none)
      = files.map fun fl => GEvent.stage fl.1 := by
    induction files with
    | nil => rfl
    | cons x xs ih => simp [hstage x.1, ih]
  have hmap : ∀ fs : List (List Name × Nat),
      ((fs.map fun fl => GEvent.stage fl.1).countP (isStageEvt p))
        = fs.countP fun e => e.1 = p := by
    intro fs
    induction fs with
    | nil => rfl
    | cons x xs ih =>
      simp only [List.map_cons, List.countP_cons, ih, isStageEvt]
  simp only [commitFolderGroup, hse, List.countP_append, List.countP_cons,
    hmap files]
  have hc : isStageEvt p (GEvent.commitGroup folder) = false := rfl
  rw [hc]
  simp [pushRetry, pushRetryAux_no_stage]

/-- `commit_and_push` stages each path of the batch exactly as often as it
occurs in the batch. -/
theorem commitAndPush_stage_count (maxR : Nat) (g : GitOracles)
    (p : List Name) (hstage : ∀ q, g.stageOk q = true)
    (batch : List (List Name × Nat)) :
    (commitAndPush maxR g batch).2.2.countP (isStageEvt p)
      = batch.countP fun e => e.1 = p := by
  by_cases hb : batch.isEmpty = true
  · have : batch = [] := List.isEmpty_iff.mp hb
    subst this
    rfl
  · simp only [commitAndPush, hb, Bool.false_eq_true, if_false]
    have hgs : ∀ gs : List (List Name × List (List Name × Nat)),
        (((gs.map fun gr => commitFolderGroup maxR g gr.1 gr.2).flatMap
          fun r => r.2.2).countP (isStageEvt p))
          = (groupsVals gs).countP fun e => e.1 = p := by
      intro gs
      induction gs with
      | nil => rfl
      | cons x xs ih =>
        simp only [List.map_cons, List.flatMap_cons, List.countP_append, ih,
          commitFolderGroup_stage_count maxR g p hstage x.1 x.2, groupsVals]
    rw [hgs (folderGroups batch)]
    exact (folderGroups_vals_perm batch).countP_eq _

theorem stepItem_wfails_mono (cfg : Config) (git : Nat → GitOracles)
    (procOk : List Name → Bool) (st : WState) (it : Item) (p : List Name)
    (h : p ∈ st.wfails) : p ∈ (stepItem cfg git procOk st it).wfails := by
  unfold stepItem flushBatch
  by_cases h1 : shouldIgnore (itemName it) it.isDir cfg.patterns = true
  · simpa [h1] using h
  · simp only [h1, Bool.false_eq_true, if_false]
    by_cases h2 : it.isDir = true
    · simpa [h2] using h
    · simp only [h2, Bool.false_eq_true, if_false]
      by_cases h3 : (processFile cfg.maxSize procOk it).1.isEmpty = true
      · simp only [h3, if_pos]
        simp [h]
      · simp only [h3, Bool.false_eq_true, if_false]
        by_cases h4 : cfg.batchSize ≤
            st.cur.length + (processFile cfg.maxSize procOk it).1.length
        · simp only [List.length_append]
          rw [if_pos h4]
          simp [h]
        · simp only [List.length_append]
          rw [if_neg h4]
          exact h

theorem runLoop_wfails_mono (cfg : Config) (git : Nat → GitOracles)
    (procOk : List Name → Bool) (stopAt : Option Nat) :
    ∀ (items : List Item) (i : Nat) (st : WState) (p : List Name),
      p ∈ st.wfails →
      p ∈ (runLoop cfg git procOk stopAt i st items).wfails := by
  intro items
  induction items with
  | nil => intro i st p h; exact h
  | cons it rest ih =>
    intro i st p h
    by_cases hs : stopRead stopAt i = true
    · simpa [runLoop, hs] using h
    · simp only [runLoop, hs, Bool.false_eq_true, if_false]
      exact ih (i + 1) _ p (stepItem_wfails_mono cfg git procOk st it p h)

/-- A file whose processing raises is recorded in `failed_pushes`. -/
theorem runLoop_wfails_mem (cfg : Config) (git : Nat → GitOracles)
    (procOk : List Name → Bool) :
    ∀ (items : List Item) (i : Nat) (st : WState) (f : Item),
      f ∈ items → f.isDir = false →
      shouldIgnore (itemName f) f.isDir cfg.patterns = false →
      procOk f.path = false →
      f.path ∈ (runLoop cfg git procOk none i st items).wfails := by
  intro items
  induction items with
  | nil => intro i st f hf; simp at hf
  | cons it rest ih =>
    intro i st f hf hfile hig hnok
    have h0 : stopRead none i = false := rfl
    simp only [runLoop, h0, Bool.false_eq_true, if_false]
    rcases List.mem_cons.mp hf with h | h
    · subst h
      apply runLoop_wfails_mono
      unfold stepItem
      rw [hig]
      simp only [Bool.false_eq_true, if_false, hfile]
      have hpf : processFile cfg.maxSize procOk f = ([], [f.path]) := by
        unfold processFile
        rw [hnok]
        simp
      rw [hpf]
      simp
    · exact ih (i + 1) _ f h hfile hig hnok

theorem runWorker_wfails_mem (cfg : Config) (git : Nat → GitOracles)
    (procOk : List Name → Bool) (items : List Item) (f : Item)
    (hf : f ∈ items) (hfile : f.isDir = false)
    (hig : shouldIgnore (itemName f) f.isDir cfg.patterns = false)
    (hnok : procOk f.path = false) :
    f.path ∈ (runWorker cfg git procOk items none).wfails := by
  have h := runLoop_wfails_mem cfg git procOk items 0 initState f hf hfile
    hig hnok
  simp only [runWorker]
  by_cases hcond : (runLoop cfg git procOk none 0 initState items).cur.isEmpty
      = false ∧ stopRead none items.length = false
  · rw [if_pos hcond]
    show f.path ∈ (flushBatch cfg git _).wfails
    unfold flushBatch
    simp [h]
  · rw [if_neg hcond]
    exact h

theorem splitStemExt_append (nm : Name) :
    (splitStemExt nm).1 ++ (splitStemExt nm).2 = nm := by
  unfold splitStemExt
  by_cases h : '.' ∈ nm
  · rw [if_pos h]
    by_cases h2 : 0 < nm.length - 1 - nm.reverse.indexOf '.' ∧
        nm.length - 1 - nm.reverse.indexOf '.' + 1 < nm.length
    · simp only [h2, if_pos]
      exact List.take_append_drop _ nm
    · simp only [h2, if_false, List.append_nil]
  · rw [if_neg h]
    exact List.append_nil nm

theorem chunkName_length_gt (stem ext : Name) (i : Nat) :
    (stem ++ ext).length < (chunkName stem ext i).length := by
  simp only [chunkName, List.length_append]
  have h5 : ("_part".toList : Name).length = 5 := rfl
  omega

theorem dropLast_append_getLastD {α : Type} (l : List α) (d : α)
    (h : l ≠ []) : l.dropLast ++ [l.getLastD d] = l := by
  induction l using List.reverseRecOn with
  | nil => exact absurd rfl h
  | append_singleton as a _ =>
    rw [List.dropLast_concat, List.getLastD_concat]

/-- None of the chunk entries replacing an oversized file is the file
itself: every chunk name is strictly longer than the original name. -/
theorem self_not_mem_chunkEntries (maxSize : Nat) (it : Item)
    (hp : it.path ≠ []) : (it.path, it.size) ∉ chunkEntries maxSize it := by
  intro hmem
  unfold chunkEntries at hmem
  obtain ⟨isz, _, heq⟩ := List.mem_map.mp hmem
  have hpath : it.path.dropLast
      ++ [chunkName (splitStemExt (itemName it)).1
            (splitStemExt (itemName it)).2 isz.1] = it.path :=
    congrArg Prod.fst heq
  have hlast : it.path.dropLast ++ [itemName it] = it.path :=
    dropLast_append_getLastD it.path [] hp
  have hc : chunkName (splitStemExt (itemName it)).1
      (splitStemExt (itemName it)).2 isz.1 = itemName it := by
    have := hpath.trans hlast.symm
    have h2 := List.append_cancel_left this
    simpa using h2
  have hlen := chunkName_length_gt (splitStemExt (itemName it)).1
    (splitStemExt (itemName it)).2 isz.1
  rw [splitStemExt_append, hc] at hlen
  omega

/-- C6: in a complete run, a non-ignored file at or below the size
threshold contributes exactly one entry to the joined flushed batches,
lies in exactly one flushed batch, and is staged exactly once; and, more
generally, every non-ignored file item of the scan falls in exactly one of
three cases — returned whole, replaced by its chunk entries (which never
include the file itself), or recorded as failed in `failed_pushes` — and
never in more than one.  The aliasing hypothesis says no other scan item
produces an entry with this file's path (distinct files have distinct
paths; re-splitting already-split files is out of scope). -/
theorem C6_file_staged_exactly_once (cfg : Config) (git : Nat → GitOracles)
    (procOk : List Name → Bool) (items : List Item) (it : Item)
    (hcount : items.countP (fun x => x = it) = 1)
    (hfile : it.isDir = false)
    (hig : shouldIgnore (itemName it) it.isDir cfg.patterns = false)
    (hok : procOk it.path = true)
    (hsize : it.size ≤ cfg.maxSize)
    (halias : ∀ x ∈ items, x ≠ it →
      (outputOf cfg procOk x).countP (fun e => e.1 = it.path) = 0)
    (hstage : ∀ i q, (git i).stageOk q = true)
    (hpaths : ∀ f ∈ items, f.path ≠ []) :
    ((runWorker cfg git procOk items none).flushed.flatten.countP
        (fun e => e = (it.path, it.size)) = 1) ∧
    ((runWorker cfg git procOk items none).flushed.countP
        (fun b => b.countP (fun e => e = (it.path, it.size)) != 0) = 1) ∧
    ((runWorker cfg git procOk items none).events.countP
        (isStageEvt it.path) = 1) ∧
    (∀ f ∈ items, f.isDir = false →
      shouldIgnore (itemName f) f.isDir cfg.patterns = false →
      ((procOk f.path = true ∧ f.size ≤ cfg.maxSize ∧
          outputOf cfg procOk f = [(f.path, f.size)]) ∨
       (procOk f.path = true ∧ cfg.maxSize < f.size ∧
          outputOf cfg procOk f = chunkEntries cfg.maxSize f ∧
          (f.path, f.size) ∉ chunkEntries cfg.maxSize f) ∨
       (procOk f.path = false ∧ outputOf cfg procOk f = [] ∧
          f.path ∈ (runWorker cfg git procOk items none).wfails)) ∧
      ¬(f.size ≤ cfg.maxSize ∧ cfg.maxSize < f.size) ∧
      ¬(procOk f.path = true ∧ procOk f.path = false)) := by
  have hout_it : outputOf cfg procOk it = [(it.path, it.size)] := by
    have hig2 : shouldIgnore (itemName it) false cfg.patterns = false :=
      hfile ▸ hig
    simp [outputOf, processFile, hig2, hfile, hok, Nat.not_lt.mpr hsize]
  have halias2 : ∀ x ∈ items, x ≠ it →
      (outputOf cfg procOk x).countP
        (fun e => e = (it.path, it.size)) = 0 := by
    intro x hx hne
    have h1 := halias x hx hne
    have h2 : (outputOf cfg procOk x).countP
        (fun e => e = (it.path, it.size))
        ≤ (outputOf cfg procOk x).countP (fun e => e.1 = it.path) := by
      apply List.countP_mono_left
      intro a _ ha
      simp only [decide_eq_true_eq] at ha ⊢
      rw [ha]
    omega
  have hjoin := runWorker_join cfg git procOk items
  have hcnt1 : (runWorker cfg git procOk items none).flushed.flatten.countP
      (fun e => e = (it.path, it.size)) = 1 := by
    rw [hjoin, countP_flatMap_unique _ _ items it hcount halias2, hout_it]
    simp
  have hcntPath : (runWorker cfg git procOk items none).flushed.flatten.countP
      (fun e => e.1 = it.path) = 1 := by
    rw [hjoin, countP_flatMap_unique _ _ items it hcount halias, hout_it]
    simp
  refine ⟨hcnt1, ?_, ?_, ?_⟩
  · apply batches_countP_one
    have := List.countP_flatten
      (l := (runWorker cfg git procOk items none).flushed)
      (p := fun e => e = (it.path, it.size))
    rw [← this]
    exact hcnt1
  · have hev := runWorker_events cfg git procOk items none
    have hevcount : ∀ (L : List (List (List Name × Nat))) (n : Nat),
        (eventsFrom cfg git n L).countP (isStageEvt it.path)
          = (L.map fun b => b.countP fun e => e.1 = it.path).sum := by
      intro L
      induction L with
      | nil => intro n; rfl
      | cons b bs ih =>
        intro n
        simp only [eventsFrom, List.countP_append, ih (n + 1), List.map_cons,
          List.sum_cons,
          commitAndPush_stage_count cfg.maxR (git n) it.path (hstage n) b]
    rw [hev, hevcount _ 0]
    have := List.countP_flatten
      (l := (runWorker cfg git procOk items none).flushed)
      (p := fun e => e.1 = it.path)
    rw [← this]
    exact hcntPath
  · intro f hf hfilef higf
    have higf2 : shouldIgnore (itemName f) false cfg.patterns = false :=
      hfilef ▸ higf
    refine ⟨?_, by omega, ?_⟩
    · by_cases hokf : procOk f.path = true
      · by_cases hsf : f.size ≤ cfg.maxSize
        · left
          refine ⟨hokf, hsf, ?_⟩
          simp [outputOf, processFile, higf2, hfilef, hokf,
            Nat.not_lt.mpr hsf]
        · right; left
          have hlt : cfg.maxSize < f.size := Nat.lt_of_not_le hsf
          refine ⟨hokf, hlt, ?_,
            self_not_mem_chunkEntries cfg.maxSize f (hpaths f hf)⟩
          simp [outputOf, processFile, higf2, hfilef, hokf, hlt]
      · right; right
        have hnok : procOk f.path = false := by
          cases hpf : procOk f.path
          · rfl
          · exact absurd hpf hokf
        refine ⟨hnok, ?_, runWorker_wfails_mem cfg git procOk items f hf
          hfilef higf hnok⟩
        simp [outputOf, processFile, higf2, hfilef, hnok]
    · rintro ⟨hok1, hok2⟩
      rw [hok1] at hok2
      simp at hok2

/-- Witness for C6: three small files, batch size 1, everything healthy;
the first file is batched and staged exactly once. -/
theorem C6_file_staged_exactly_once_witness :
    (threeItems.countP
        (fun x => x = (⟨["a.bin".toList], false, 1⟩ : Item)) = 1 ∧
     (⟨["a.bin".toList], false, 1⟩ : Item).isDir = false ∧
     shouldIgnore (itemName ⟨["a.bin".toList], false, 1⟩)
       (⟨["a.bin".toList], false, 1⟩ : Item).isDir ([] : List Name) = false ∧
     (fun (_ : List Name) => true) (⟨["a.bin".toList], false, 1⟩ : Item).path
       = true ∧
     (⟨["a.bin".toList], false, 1⟩ : Item).size ≤ (100 : Nat) ∧
     (∀ x ∈ threeItems, x ≠ (⟨["a.bin".toList], false, 1⟩ : Item) →
       (outputOf ⟨100, 1, [], 3⟩ (fun _ => true) x).countP
         (fun e => e.1 = (⟨["a.bin".toList], false, 1⟩ : Item).path) = 0) ∧
     (∀ (i : Nat) (q : List Name),
       ((fun (_ : Nat) => okGit) i).stageOk q = true) ∧
     (∀ f ∈ threeItems, f.path ≠ [])) ∧
    (((runWorker ⟨100, 1, [], 3⟩ (fun _ => okGit) (fun _ => true) threeItems
          none).flushed.flatten.countP
        (fun e => e = ((⟨["a.bin".toList], false, 1⟩ : Item).path,
          (⟨["a.bin".toList], false, 1⟩ : Item).size)) = 1) ∧
     ((runWorker ⟨100, 1, [], 3⟩ (fun _ => okGit) (fun _ => true) threeItems
          none).flushed.countP
        (fun b => b.countP
          (fun e => e = ((⟨["a.bin".toList], false, 1⟩ : Item).path,
            (⟨["a.bin".toList], false, 1⟩ : Item).size)) != 0) = 1) ∧
     ((runWorker ⟨100, 1, [], 3⟩ (fun _ => okGit) (fun _ => true) threeItems
          none).events.countP
        (isStageEvt (⟨["a.bin".toList], false, 1⟩ : Item).path) = 1) ∧
     (∀ f ∈ threeItems, f.isDir = false →
       shouldIgnore (itemName f) f.isDir ([] : List Name) = false →
       (((fun (_ : List Name) => true) f.path = true ∧ f.size ≤ (100 : Nat) ∧
           outputOf ⟨100, 1, [], 3⟩ (fun _ => true) f = [(f.path, f.size)]) ∨
        ((fun (_ : List Name) => true) f.path = true ∧ (100 : Nat) < f.size ∧
           outputOf ⟨100, 1, [], 3⟩ (fun _ => true) f
             = chunkEntries 100 f ∧
           (f.path, f.size) ∉ chunkEntries 100 f) ∨
        ((fun (_ : List Name) => true) f.path = false ∧
           outputOf ⟨100, 1, [], 3⟩ (fun _ => true) f = [] ∧
           f.path ∈ (runWorker ⟨100, 1, [], 3⟩ (fun _ => okGit)
             (fun _ => true) threeItems none).wfails)) ∧
       ¬(f.size ≤ (100 : Nat) ∧ (100 : Nat) < f.size) ∧
       ¬((fun (_ : List Name) => true) f.path = true ∧
         (fun (_ : List Name) => true) f.path = false))) :=
  ⟨⟨by decide, by decide, by decide, rfl, by decide, by decide,
    fun _ _ => rfl, by decide⟩,
   C6_file_staged_exactly_once ⟨100, 1, [], 3⟩ (fun _ => okGit)
     (fun _ => true) threeItems ⟨["a.bin".toList], false, 1⟩ (by decide)
     (by decide) (by decide) rfl (by decide) (by decide) (fun _ _ => rfl)
     (by decide)⟩

/-- C10: an ignore pattern consisting of the bare asterisk matches every
path: the suffix rule compares the name against the text after the
asterisk, which is empty, and every name ends with the empty suffix, so
`should_ignore` returns true for every file and directory once `*` is in
the pattern list. -/
theorem C10_star_matches_everything (nm : Name) (isDir : Bool)
    (pats : List Name) (h : ['*'] ∈ pats) :
    shouldIgnore nm isDir pats = true := by
  unfold shouldIgnore
  rw [List.any_eq_true]
  refine ⟨['*'], h, ?_⟩
  simp [List.isSuffixOf]

/-- Witness for C10: the pattern list `["*"]` makes `x.bin` ignored. -/
theorem C10_star_matches_everything_witness :
    (['*'] ∈ ["*".toList]) ∧
    shouldIgnore "x.bin".toList false ["*".toList] = true :=
  ⟨by decide,
   C10_star_matches_everything "x.bin".toList false ["*".toList] (by decide)⟩

end GitAutoPush
